import Mathlib

/-!
Verification of the DAG builder engine (`DAGBuilder` in the repository's
single source component).  The data model and the operations are shallowly
embedded below; nondeterministic inputs of the code (generated node ids,
random positions, file-picker contents) become explicit parameters.
-/

set_option maxHeartbeats 1000000

namespace DagBuilder

/-- `interface Node { id, label, x, y }`.  The code stores positions as
JavaScript numbers produced by `Math.random`; no operation computes with
them, so they are carried as integers here. -/
structure Node where
  id : String
  label : String
  x : Int
  y : Int
deriving DecidableEq, Repr

/-- `interface Edge { from, to }`. -/
structure Edge where
  «from» : String
  «to» : String
deriving DecidableEq, Repr

/-- `interface DAGState { nodes, edges }`. -/
structure DAGState where
  nodes : List Node
  edges : List Edge
deriving DecidableEq, Repr

/-- The empty graph, the component's initial `useState` value. -/
def emptyState : DAGState := ⟨[], []⟩

/-- The typed reasons the component reports through `setError`.  Each
constructor corresponds to one literal message in the source. -/
inductive Err where
  /-- "Node label cannot be empty" (addNode) -/
  | emptyLabel
  /-- "Edge already exists" (addEdge) -/
  | duplicateEdge
  /-- "Cannot add edge: would create a cycle" (addEdge) -/
  | wouldCreateCycle
  /-- "Invalid file format" (importGraph) -/
  | invalidFile
deriving DecidableEq, Repr

/-- The characters `String.prototype.trim` strips: the ECMAScript
WhiteSpace and LineTerminator code points (the common ones). -/
def isJsSpace (c : Char) : Bool :=
  c ∈ [' ', '\t', '\n', '\r', '\x0b', '\x0c', '\u00a0', '\ufeff', '\u2028', '\u2029']

/-- `label.trim()` of JavaScript: strip leading and trailing whitespace. -/
def trimJs (s : String) : String :=
  ⟨((s.data.dropWhile isJsSpace).reverse.dropWhile isJsSpace).reverse⟩

/-- The ids of the currently stored nodes, `state.nodes.map(n => n.id)`. -/
def nodeIds (st : DAGState) : List String := st.nodes.map (·.id)

/-- Successor lists of the adjacency map built inside `wouldCreateCycle`:
for a key `n` of the map, its value after the two `forEach` loops and the
candidate push is the `to` of every stored edge with `from == n`, followed by
the candidate target when `cf == n`. -/
def succs (st : DAGState) (cf ct : String) (n : String) : List String :=
  (st.edges.filter (fun e => e.«from» = n)).map (·.«to») ++
    (if cf = n then [ct] else [])

/-- The adjacency map of `wouldCreateCycle` as a function: `Map.set` is keyed
by the node ids, `adjacencyList.get(...)?.push(...)` silently skips sources
that are not nodes, and `adjacencyList.get(nodeId) || []` reads a missing key
as the empty list. -/
def adjacency (st : DAGState) (cf ct : String) : String → List String :=
  fun n => if n ∈ nodeIds st then succs st cf ct n else []

/-- The body of the recursive `hasCycle`, merged into one function over the
neighbour worklist: `dfsL adj fuel ns stack visited` scans the remaining
neighbours `ns` of the node on top of `stack` (the code's `recStack`, here
the explicit recursion path).  An unvisited neighbour `m` is explored by
recursing on `adj m` with `m` pushed onto the path and added to `visited`
(the shared mutable set of the code, threaded as state here); a visited
neighbour on the path is a back-edge and yields `true`; any other visited
neighbour is skipped.  The fuel parameter only serves termination: one unit
is consumed per call, and `wouldCreateCycle` passes a bound proven
sufficient (`dfs_total`), so the `none` result never occurs there. -/
def dfsL (adj : String → List String) :
    Nat → List String → List String → List String → Option (Bool × List String)
  | 0, _, _, _ => none
  | _ + 1, [], _, visited => some (false, visited)
  | fuel + 1, m :: rest, stack, visited =>
    if m ∈ visited then
      if m ∈ stack then some (true, visited)
      else dfsL adj fuel rest stack visited
    else
      match dfsL adj fuel (adj m) (m :: stack) (m :: visited) with
      | none => none
      | some (true, v) => some (true, v)
      | some (false, v) => dfsL adj fuel rest stack v

/-- A fuel budget for `dfsL`: enough for every vertex of `univ` to be
visited and have its whole neighbour list scanned, plus the start node's
own neighbour list.  `dfs_total` proves it sufficient when `univ` contains
every value of `adj`. -/
def dfsFuel (adj : String → List String) (univ : List String) (start : String) : Nat :=
  (univ.dedup.map (fun n => (adj n).length + 2)).sum + (adj start).length + 1

/-- `wouldCreateCycle(from, to)`: the `from === to` early return, then the
depth-first search `hasCycle(from)` over the candidate-augmented adjacency
map — the entry of `hasCycle(from)` puts `from` on `visited` and on the
recursion stack and scans its neighbours. -/
def wouldCreateCycle (st : DAGState) (f t : String) : Bool :=
  if f = t then true
  else
    let adj := adjacency st f t
    match dfsL adj (dfsFuel adj (st.edges.map (·.«to») ++ [t]) f) (adj f) [f] [f] with
    | some (b, _) => b
    | none => false

/-- The mutating intents the component exposes; generated data (`Date.now`
ids, random coordinates) appear as parameters. -/
inductive Op where
  | addNode (id : String) (label : String) (x y : Int)
  | deleteNode (id : String)
  | addEdge (f t : String)
  | deleteEdge (f t : String)
deriving DecidableEq, Repr

/-- One operation on the store: the new state together with the error
reported through `setError` (if any).  Mirrors `addNode`, `deleteNode`,
`addEdge` and `deleteEdge` of the source. -/
def applyOp (op : Op) (st : DAGState) : DAGState × Option Err :=
  match op with
  | .addNode id label x y =>
    if trimJs label = "" then (st, some .emptyLabel)
    else ({ st with nodes := st.nodes ++ [⟨id, trimJs label, x, y⟩] }, none)
  | .deleteNode id =>
    (⟨st.nodes.filter (fun n => ¬ n.id = id),
      st.edges.filter (fun e => ¬ e.«from» = id ∧ ¬ e.«to» = id)⟩, none)
  | .addEdge f t =>
    if st.edges.any (fun e => e.«from» = f ∧ e.«to» = t) then
      (st, some .duplicateEdge)
    else if wouldCreateCycle st f t then
      (st, some .wouldCreateCycle)
    else
      ({ st with edges := st.edges ++ [⟨f, t⟩] }, none)
  | .deleteEdge f t =>
    ({ st with edges := st.edges.filter (fun e => ¬ (e.«from» = f ∧ e.«to» = t)) }, none)

/-- Run a list of operations from a state, keeping the final state. -/
def runOps (ops : List Op) (st : DAGState) : DAGState :=
  ops.foldl (fun s op => (applyOp op s).1) st

/-- Every operation of the list reports no error when run in sequence. -/
def allOk (st : DAGState) : List Op → Bool
  | [] => true
  | op :: rest => (applyOp op st).2.isNone && allOk (applyOp op st).1 rest

/-- An operation is well-targeted at a state when, if it is an `addEdge`,
both arguments name existing nodes (this is how the rendering layer invokes
`addEdge`: both arguments are ids of displayed nodes). -/
def opOk (st : DAGState) : Op → Bool
  | .addEdge f t => decide (f ∈ nodeIds st) && decide (t ∈ nodeIds st)
  | _ => true

/-- Every `addEdge` of the list names existing nodes at the state where it
runs. -/
def goodFrom (st : DAGState) : List Op → Bool
  | [] => true
  | op :: rest => opOk st op && goodFrom (applyOp op st).1 rest

/-- The structured exchange values of `JSON.stringify`/`JSON.parse`,
restricted to the shapes this component produces and consumes. -/
inductive Json where
  | str (s : String)
  | num (n : Int)
  | arr (xs : List Json)
  | obj (fields : List (String × Json))

/-- The document `JSON.stringify(state)` produces for one node record. -/
def nodeToJson (n : Node) : Json :=
  .obj [("id", .str n.id), ("label", .str n.label), ("x", .num n.x), ("y", .num n.y)]

/-- The document `JSON.stringify(state)` produces for one edge record. -/
def edgeToJson (e : Edge) : Json :=
  .obj [("from", .str e.«from»), ("to", .str e.«to»)]

/-- `exportGraph`'s serialized form of the whole state: the two top-level
fields `nodes` and `edges`, each an array preserving the stored order. -/
def exportGraph (st : DAGState) : Json :=
  .obj [("nodes", .arr (st.nodes.map nodeToJson)),
        ("edges", .arr (st.edges.map edgeToJson))]

/-- First field of an object document with the given name, as read by a
JavaScript property access on the parsed value. -/
def getField (j : Json) (name : String) : Option Json :=
  match j with
  | .obj fields => (fields.find? (fun p => p.1 = name)).map (·.2)
  | _ => none

/-- Reading one node record `{id, label, x, y}` back from a parsed
document, by the property accesses the component performs on `state`. -/
def nodeFromJson (j : Json) : Option Node :=
  match getField j "id", getField j "label", getField j "x", getField j "y" with
  | some (.str i), some (.str l), some (.num x), some (.num y) => some ⟨i, l, x, y⟩
  | _, _, _, _ => none

/-- Reading one edge record `{from, to}` back from a parsed document. -/
def edgeFromJson (j : Json) : Option Edge :=
  match getField j "from", getField j "to" with
  | some (.str f), some (.str t) => some ⟨f, t⟩
  | _, _ => none

/-- Collect an optional value for every list element. -/
def optionAll {α β : Type} (g : α → Option β) : List α → Option (List β)
  | [] => some []
  | a :: rest =>
    match g a, optionAll g rest with
    | some b, some bs => some (b :: bs)
    | _, _ => none

/-- Reading a whole graph document back: the `nodes` and `edges` arrays with
their record fields, in stored order. -/
def graphFromJson (j : Json) : Option DAGState :=
  match getField j "nodes", getField j "edges" with
  | some (.arr ns), some (.arr es) =>
    match optionAll nodeFromJson ns, optionAll edgeFromJson es with
    | some nodes, some edges => some ⟨nodes, edges⟩
    | _, _ => none
  | _, _ => none

/-- `importGraph`: `JSON.parse` of the chosen file either throws — modelled
by the `none` argument — which reports "Invalid file format" and keeps the
state, or yields a value that `setState` adopts wholesale; the code performs
no validation of the parsed value. -/
def importGraph (parsed : Option DAGState) (st : DAGState) : DAGState × Option Err :=
  match parsed with
  | none => (st, some .invalidFile)
  | some g => (g, none)

/-- One stored edge from `a` to `b`. -/
def estep (st : DAGState) (a b : String) : Prop := Edge.mk a b ∈ st.edges

instance (st : DAGState) (a b : String) : Decidable (estep st a b) := by
  unfold estep; infer_instance

/-- `b` is reachable from `a` along stored edges (in zero or more steps). -/
def Reaches (st : DAGState) (a b : String) : Prop :=
  Relation.ReflTransGen (estep st) a b

/-- The edge set contains no directed cycle: no edge closes a walk back to
its own source. -/
def Acyclic (st : DAGState) : Prop :=
  ∀ a b, estep st a b → Reaches st b a → False

/-- Every stored edge references currently-existing nodes. -/
def WellFormed (st : DAGState) : Prop :=
  ∀ e ∈ st.edges, e.«from» ∈ nodeIds st ∧ e.«to» ∈ nodeIds st

/-- One step along an adjacency function. -/
def gstep (adj : String → List String) (a b : String) : Prop := b ∈ adj a

/-- A list of vertices in reverse topological order for `adj`: each entry's
successors all occur later in the list (they finished earlier in the
depth-first search). -/
def TopoList (adj : String → List String) : List String → Prop
  | [] => True
  | x :: t => (∀ y ∈ adj x, y ∈ t) ∧ TopoList adj t

/-- Remaining fuel requirement of `dfsL`: every not-yet-visited vertex of
`univ` may still be visited and have its neighbour list scanned. -/
def budget (adj : String → List String) (univ : List String) (visited : List String) : Nat :=
  ((univ.dedup.filter (fun n => ¬ n ∈ visited)).map (fun n => (adj n).length + 2)).sum

/-! ### Lemmas about the depth-first search -/

section Dfs

variable {adj : String → List String}

/-- The visited set only grows across a search. -/
theorem dfsL_mono : ∀ fuel ns stack visited b v',
    dfsL adj fuel ns stack visited = some (b, v') → ∀ x ∈ visited, x ∈ v' := by
  intro fuel
  induction fuel with
  | zero => intro ns stack visited b v' h; simp [dfsL] at h
  | succ fuel ih =>
    intro ns stack visited b v' h x hx
    match ns with
    | [] =>
      simp [dfsL] at h
      rw [← h.2]; exact hx
    | m :: rest =>
      rw [dfsL] at h
      by_cases hm : m ∈ visited
      · simp only [hm, if_true] at h
        by_cases hs : m ∈ stack
        · simp only [hs, if_true, Option.some.injEq, Prod.mk.injEq] at h
          rw [← h.2]; exact hx
        · simp only [hs, if_false] at h
          exact ih rest stack visited b v' h x hx
      · simp only [hm, if_false] at h
        cases hinner : dfsL adj fuel (adj m) (m :: stack) (m :: visited) with
        | none => rw [hinner] at h; simp at h
        | some r =>
          obtain ⟨b'', v''⟩ := r
          rw [hinner] at h
          match b'' with
          | true =>
            simp only [Option.some.injEq, Prod.mk.injEq] at h
            have := ih (adj m) (m :: stack) (m :: visited) true v'' hinner x (by simp [hx])
            rw [← h.2]; exact this
          | false =>
            have h1 := ih (adj m) (m :: stack) (m :: visited) false v'' hinner x (by simp [hx])
            exact ih rest stack v'' b v' h x h1

/-- Splitting off one newly visited vertex from the budget. -/
theorem budget_cons {univ visited : List String} {m : String}
    (hmu : m ∈ univ) (hmv : m ∉ visited) :
    budget adj univ visited = budget adj univ (m :: visited) + ((adj m).length + 2) := by
  unfold budget
  have hd : m ∈ univ.dedup := List.mem_dedup.2 hmu
  have hnd : univ.dedup.Nodup := List.nodup_dedup univ
  revert hd hnd
  generalize univ.dedup = D
  induction D with
  | nil => intro hd _; cases hd
  | cons d rest ih =>
    intro hd hnd
    rw [List.nodup_cons] at hnd
    by_cases hdm : d = m
    · subst hdm
      have hfilters : rest.filter (fun n => decide ¬n ∈ visited) =
          rest.filter (fun n => decide ¬n ∈ d :: visited) := by
        apply List.filter_congr
        intro x hx
        have hxd : ¬ x = d := fun hh => hnd.1 (hh ▸ hx)
        simp [hxd]
      simp only [List.filter_cons, decide_eq_true_eq]
      rw [if_pos hmv, if_neg (fun hcon => hcon (List.mem_cons_self d visited))]
      rw [List.map_cons, List.sum_cons, hfilters]
      omega
    · have hdr : m ∈ rest := by
        rcases List.mem_cons.1 hd with h | h
        · exact absurd h.symm hdm
        · exact h
      simp only [List.filter_cons, decide_eq_true_eq]
      by_cases hdv : d ∈ visited
      · rw [if_neg (not_not_intro hdv),
          if_neg (not_not_intro (List.mem_cons_of_mem m hdv))]
        exact ih hdr hnd.2
      · rw [if_pos hdv, if_pos ?keep]
        case keep =>
          intro h
          rcases List.mem_cons.1 h with h | h
          · exact hdm h
          · exact hdv h
        rw [List.map_cons, List.sum_cons, List.map_cons, List.sum_cons, ih hdr hnd.2]
        omega

/-- A larger visited set needs no more budget. -/
theorem budget_mono {univ v1 v2 : List String} (h : ∀ x ∈ v1, x ∈ v2) :
    budget adj univ v2 ≤ budget adj univ v1 := by
  unfold budget
  apply List.Sublist.sum_le_sum
  · apply List.Sublist.map
    apply List.monotone_filter_right
    intro a ha
    simp only [decide_eq_true_eq] at ha ⊢
    exact fun hv1 => ha (h a hv1)
  · intro a ha; exact Nat.zero_le a

/-- With enough fuel the search never runs dry. -/
theorem dfsL_total {univ : List String}
    (hclose : ∀ x, ∀ y ∈ adj x, y ∈ univ) :
    ∀ fuel ns stack visited, (∀ m ∈ ns, m ∈ univ) →
    budget adj univ visited + ns.length + 1 ≤ fuel →
    ∃ r, dfsL adj fuel ns stack visited = some r := by
  intro fuel
  induction fuel with
  | zero => intro ns stack visited _ hb; omega
  | succ fuel ih =>
    intro ns stack visited hns hb
    match ns with
    | [] => exact ⟨(false, visited), by rw [dfsL]⟩
    | m :: rest =>
      rw [dfsL]
      by_cases hm : m ∈ visited
      · simp only [hm, if_true]
        by_cases hs : m ∈ stack
        · exact ⟨(true, visited), by rw [if_pos hs]⟩
        · rw [if_neg hs]
          apply ih rest stack visited (fun k hk => hns k (List.mem_cons_of_mem m hk))
          simp only [List.length_cons] at hb
          omega
      · simp only [hm, if_false]
        have hmu : m ∈ univ := hns m (List.mem_cons_self m rest)
        have hsplit : budget adj univ visited =
            budget adj univ (m :: visited) + ((adj m).length + 2) := budget_cons hmu hm
        obtain ⟨⟨b', v''⟩, hinner⟩ :=
          ih (adj m) (m :: stack) (m :: visited) (fun k hk => hclose m k hk)
            (by simp only [List.length_cons] at hb; omega)
        rw [hinner]
        match b' with
        | true => exact ⟨(true, v''), rfl⟩
        | false =>
          have hsub : ∀ x ∈ (m :: visited), x ∈ v'' :=
            dfsL_mono fuel (adj m) (m :: stack) (m :: visited) false v'' hinner
          have hbv : budget adj univ v'' ≤ budget adj univ (m :: visited) :=
            budget_mono hsub
          apply ih rest stack v'' (fun k hk => hns k (List.mem_cons_of_mem m hk))
          simp only [List.length_cons] at hb
          omega

/-- Every member of a chained recursion stack reaches the top of the stack. -/
theorem chain_mem_reach {m : String} : ∀ (L : List String) (cur : String),
    List.Chain' (fun a b => a ∈ adj b) (cur :: L) → m ∈ cur :: L →
    Relation.ReflTransGen (gstep adj) m cur := by
  intro L
  induction L with
  | nil =>
    intro cur _ hm
    rcases List.mem_cons.1 hm with rfl | h
    · exact .refl
    · cases h
  | cons c2 L2 ih =>
    intro cur hch hm
    rcases List.mem_cons.1 hm with rfl | hm2
    · exact .refl
    · have hparts := List.chain'_cons.1 hch
      have hback : Relation.ReflTransGen (gstep adj) m c2 := ih c2 hparts.2 hm2
      exact hback.tail hparts.1

/-- If the search reports `true`, the adjacency relation has an edge closing
a walk back to its source (a directed cycle). -/
theorem dfsL_true_cycle : ∀ fuel ns cur srest visited v',
    dfsL adj fuel ns (cur :: srest) visited = some (true, v') →
    (∀ m ∈ ns, m ∈ adj cur) →
    List.Chain' (fun a b => a ∈ adj b) (cur :: srest) →
    ∃ a b, b ∈ adj a ∧ Relation.ReflTransGen (gstep adj) b a := by
  intro fuel
  induction fuel with
  | zero => intro ns cur srest visited v' h; simp [dfsL] at h
  | succ fuel ih =>
    intro ns cur srest visited v' h hns hch
    match ns with
    | [] => simp [dfsL] at h
    | m :: rest =>
      rw [dfsL] at h
      by_cases hm : m ∈ visited
      · simp only [hm, if_true] at h
        by_cases hs : m ∈ cur :: srest
        · exact ⟨cur, m, hns m (List.mem_cons_self m rest), chain_mem_reach srest cur hch hs⟩
        · simp only [hs, if_false] at h
          exact ih rest cur srest visited v' h
            (fun k hk => hns k (List.mem_cons_of_mem m hk)) hch
      · simp only [hm, if_false] at h
        cases hinner : dfsL adj fuel (adj m) (m :: cur :: srest) (m :: visited) with
        | none => rw [hinner] at h; simp at h
        | some r =>
          obtain ⟨b', v''⟩ := r
          match b' with
          | true =>
            exact ih (adj m) m (cur :: srest) (m :: visited) v'' hinner (fun k hk => hk)
              (List.chain'_cons.2 ⟨hns m (List.mem_cons_self m rest), hch⟩)
          | false =>
            rw [hinner] at h
            exact ih rest cur srest v'' v' h
              (fun k hk => hns k (List.mem_cons_of_mem m hk)) hch

/-- A topologically ordered list is closed under successors. -/
theorem topoList_closed : ∀ L, TopoList adj L → ∀ x ∈ L, ∀ y ∈ adj x, y ∈ L := by
  intro L
  induction L with
  | nil => intro _ x hx; cases hx
  | cons h t ih =>
    intro hL x hx y hy
    rcases List.mem_cons.1 hx with rfl | hxt
    · exact List.mem_cons_of_mem x (hL.1 y hy)
    · exact List.mem_cons_of_mem h (ih hL.2 x hxt y hy)

/-- Walks starting inside a topologically ordered list stay inside it. -/
theorem topoList_reach_mem {L : List String} {b z : String} (hL : TopoList adj L)
    (hb : b ∈ L) (h : Relation.ReflTransGen (gstep adj) b z) : z ∈ L := by
  induction h with
  | refl => exact hb
  | tail _ hcz ih => exact topoList_closed L hL _ ih _ hcz

/-- A topologically ordered list of distinct vertices carries no cycle. -/
theorem topoList_no_cycle : ∀ L, TopoList adj L → L.Nodup →
    ∀ a b, a ∈ L → b ∈ adj a → Relation.ReflTransGen (gstep adj) b a → False := by
  intro L
  induction L with
  | nil => intro _ _ a b ha; cases ha
  | cons x t ih =>
    intro hL hnd a b ha hb hba
    rw [List.nodup_cons] at hnd
    rcases List.mem_cons.1 ha with rfl | hat
    · exact hnd.1 (topoList_reach_mem hL.2 (hL.1 b hb) hba)
    · exact ih hL.2 hnd.2 a b hat hb hba

/-- If the search reports `false`, the finished (popped) vertices form a
topologically ordered, duplicate-free list that absorbs the scanned
neighbour list: the invariant of the grey/black depth-first search. -/
theorem dfsL_false_topo : ∀ fuel ns stack visited v' B,
    dfsL adj fuel ns stack visited = some (false, v') →
    (∀ x, x ∈ visited ↔ x ∈ B ∨ x ∈ stack) →
    TopoList adj B → B.Nodup → (∀ x ∈ stack, x ∉ B) →
    ∃ B', (∀ x, x ∈ v' ↔ x ∈ B' ∨ x ∈ stack) ∧ TopoList adj B' ∧ B'.Nodup ∧
      (∀ x ∈ stack, x ∉ B') ∧ (∀ x ∈ B, x ∈ B') ∧ (∀ m ∈ ns, m ∈ B') := by
  intro fuel
  induction fuel with
  | zero => intro ns stack visited v' B h; simp [dfsL] at h
  | succ fuel ih =>
    intro ns stack visited v' B h hiff htopo hnd hdisj
    match ns with
    | [] =>
      rw [dfsL] at h
      simp only [Option.some.injEq, Prod.mk.injEq] at h
      rw [← h.2]
      exact ⟨B, hiff, htopo, hnd, hdisj, fun x hx => hx, by simp⟩
    | m :: rest =>
      rw [dfsL] at h
      by_cases hm : m ∈ visited
      · simp only [hm, if_true] at h
        by_cases hs : m ∈ stack
        · simp only [hs, if_true] at h; simp at h
        · simp only [hs, if_false] at h
          obtain ⟨B', h1, h2, h3, h4, h5, h6⟩ := ih rest stack visited v' B h hiff htopo hnd hdisj
          refine ⟨B', h1, h2, h3, h4, h5, ?_⟩
          intro k hk
          rcases List.mem_cons.1 hk with rfl | hkr
          · rcases (hiff k).1 hm with hB | hS
            · exact h5 k hB
            · exact absurd hS hs
          · exact h6 k hkr
      · simp only [hm, if_false] at h
        cases hinner : dfsL adj fuel (adj m) (m :: stack) (m :: visited) with
        | none => rw [hinner] at h; simp at h
        | some r =>
          obtain ⟨b', v''⟩ := r
          match b' with
          | true => rw [hinner] at h; simp at h
          | false =>
            rw [hinner] at h
            have hiff2 : ∀ x, x ∈ (m :: visited) ↔ x ∈ B ∨ x ∈ (m :: stack) := by
              intro x
              constructor
              · intro hx
                rcases List.mem_cons.1 hx with rfl | hx2
                · exact Or.inr (List.mem_cons_self x stack)
                · rcases (hiff x).1 hx2 with hB | hS
                  · exact Or.inl hB
                  · exact Or.inr (List.mem_cons_of_mem m hS)
              · intro hx
                rcases hx with hB | hS
                · exact List.mem_cons_of_mem m ((hiff x).2 (Or.inl hB))
                · rcases List.mem_cons.1 hS with rfl | hS2
                  · exact List.mem_cons_self x visited
                  · exact List.mem_cons_of_mem m ((hiff x).2 (Or.inr hS2))
            have hdisj2 : ∀ x ∈ (m :: stack), x ∉ B := by
              intro x hx
              rcases List.mem_cons.1 hx with rfl | hx2
              · exact fun hxB => hm ((hiff x).2 (Or.inl hxB))
              · exact hdisj x hx2
            obtain ⟨B2, k1, k2, k3, k4, k5, k6⟩ :=
              ih (adj m) (m :: stack) (m :: visited) v'' B hinner hiff2 htopo hnd hdisj2
            have hmB2 : m ∉ B2 := k4 m (List.mem_cons_self m stack)
            have hmstack : m ∉ stack := fun hc => hm ((hiff m).2 (Or.inr hc))
            have htopo3 : TopoList adj (m :: B2) := ⟨k6, k2⟩
            have hnd3 : (m :: B2).Nodup := List.nodup_cons.2 ⟨hmB2, k3⟩
            have hiff3 : ∀ x, x ∈ v'' ↔ x ∈ (m :: B2) ∨ x ∈ stack := by
              intro x
              rw [k1 x]
              constructor
              · rintro (hB | hS)
                · exact Or.inl (List.mem_cons_of_mem m hB)
                · rcases List.mem_cons.1 hS with rfl | hS2
                  · exact Or.inl (List.mem_cons_self x B2)
                  · exact Or.inr hS2
              · rintro (hB | hS)
                · rcases List.mem_cons.1 hB with rfl | hB2
                  · exact Or.inr (List.mem_cons_self x stack)
                  · exact Or.inl hB2
                · exact Or.inr (List.mem_cons_of_mem m hS)
            have hdisj3 : ∀ x ∈ stack, x ∉ (m :: B2) := by
              intro x hx hxc
              rcases List.mem_cons.1 hxc with rfl | hxB
              · exact hmstack hx
              · exact k4 x (List.mem_cons_of_mem m hx) hxB
            obtain ⟨B', l1, l2, l3, l4, l5, l6⟩ :=
              ih rest stack v'' v' (m :: B2) h hiff3 htopo3 hnd3 hdisj3
            refine ⟨B', l1, l2, l3, l4, ?_, ?_⟩
            · exact fun x hx => l5 x (List.mem_cons_of_mem m (k5 x hx))
            · intro k hk
              rcases List.mem_cons.1 hk with rfl | hkr
              · exact l5 k (List.mem_cons_self k B2)
              · exact l6 k hkr

end Dfs

/-! ### The specification of `wouldCreateCycle` -/

section Wcc

variable {st : DAGState} {f t : String}

/-- Membership in the candidate-augmented adjacency map, spelled out. -/
theorem adjacency_mem {cf ct x y : String} :
    y ∈ adjacency st cf ct x ↔
      x ∈ nodeIds st ∧ (Edge.mk x y ∈ st.edges ∨ (x = cf ∧ y = ct)) := by
  unfold adjacency succs
  by_cases hx : x ∈ nodeIds st
  · simp only [hx, if_true, true_and, List.mem_append, List.mem_map, List.mem_filter,
      decide_eq_true_eq]
    constructor
    · rintro (⟨e, ⟨he, hef⟩, het⟩ | hcand)
      · left
        have : Edge.mk x y = e := by
          cases e
          simp only [Edge.mk.injEq]
          exact ⟨hef.symm, het.symm⟩
        rw [this]; exact he
      · by_cases hcf : cf = x
        · rw [if_pos hcf] at hcand
          rcases List.mem_cons.1 hcand with rfl | hcon
          · exact Or.inr ⟨hcf.symm, rfl⟩
          · cases hcon
        · rw [if_neg hcf] at hcand; cases hcand
    · rintro (he | ⟨rfl, rfl⟩)
      · exact Or.inl ⟨Edge.mk x y, ⟨he, rfl⟩, rfl⟩
      · right; rw [if_pos rfl]; exact List.mem_cons_self _ _
  · simp [hx]

/-- The fuel `wouldCreateCycle` passes is sufficient: the search completes
and its Boolean is the function's result. -/
theorem wcc_run (hne : f ≠ t) : ∃ v,
    dfsL (adjacency st f t)
      (dfsFuel (adjacency st f t) (st.edges.map (·.«to») ++ [t]) f)
      (adjacency st f t f) [f] [f] = some (wouldCreateCycle st f t, v) := by
  have hclose : ∀ x, ∀ y ∈ adjacency st f t x, y ∈ st.edges.map (·.«to») ++ [t] := by
    intro x y hy
    rcases (adjacency_mem.1 hy).2 with he | ⟨rfl, rfl⟩
    · exact List.mem_append.2 (Or.inl (List.mem_map.2 ⟨Edge.mk x y, he, rfl⟩))
    · exact List.mem_append.2 (Or.inr (List.mem_cons_self y []))
  have hsub : budget (adjacency st f t) (st.edges.map (·.«to») ++ [t]) [f] ≤
      (((st.edges.map (·.«to») ++ [t]).dedup).map
        (fun n => (adjacency st f t n).length + 2)).sum := by
    unfold budget
    apply List.Sublist.sum_le_sum
    · exact List.Sublist.map _ (List.filter_sublist _)
    · intro a _; exact Nat.zero_le a
  obtain ⟨⟨b, v⟩, hd⟩ := dfsL_total hclose
    (dfsFuel (adjacency st f t) (st.edges.map (·.«to») ++ [t]) f)
    (adjacency st f t f) [f] [f] (fun m hm => hclose f m hm)
    (by unfold dfsFuel; omega)
  have hwb : wouldCreateCycle st f t = b := by
    unfold wouldCreateCycle
    rw [if_neg hne]
    simp only [hd]
  refine ⟨v, ?_⟩
  rw [hwb]
  exact hd

/-- A `false` verdict of `wouldCreateCycle` means no directed cycle is
reachable from `f` in the candidate-augmented adjacency graph. -/
theorem wcc_false_no_cycle (h : wouldCreateCycle st f t = false) :
    ∀ a b, Relation.ReflTransGen (gstep (adjacency st f t)) f a →
      gstep (adjacency st f t) a b →
      Relation.ReflTransGen (gstep (adjacency st f t)) b a → False := by
  by_cases hne : f = t
  · rw [wouldCreateCycle, if_pos hne] at h; cases h
  obtain ⟨v', hd⟩ := wcc_run hne
  rw [h] at hd
  obtain ⟨B', p1, p2, p3, p4, p5, p6⟩ :=
    dfsL_false_topo _ _ _ _ _ ([] : List String) hd
      (by simp) trivial List.nodup_nil (by simp)
  have hfB : f ∉ B' := p4 f (List.mem_cons_self f [])
  have hreach_mem : ∀ z, Relation.ReflTransGen (gstep (adjacency st f t)) f z →
      z = f ∨ z ∈ B' := by
    intro z hz
    induction hz with
    | refl => exact Or.inl rfl
    | tail _ hstep ih =>
      rcases ih with rfl | hB
      · exact Or.inr (p6 _ hstep)
      · exact Or.inr (topoList_closed B' p2 _ hB _ hstep)
  intro a b hfa hab hba
  rcases hreach_mem a hfa with rfl | haB
  · exact hfB (topoList_reach_mem p2 (p6 b hab) hba)
  · exact topoList_no_cycle B' p2 p3 a b haB hab hba

/-- A `true` verdict of `wouldCreateCycle` means either a self-edge or an
actual directed cycle in the candidate-augmented adjacency graph. -/
theorem wcc_true_cycle (h : wouldCreateCycle st f t = true) :
    f = t ∨ ∃ a b, b ∈ adjacency st f t a ∧
      Relation.ReflTransGen (gstep (adjacency st f t)) b a := by
  by_cases hne : f = t
  · exact Or.inl hne
  right
  obtain ⟨v', hd⟩ := wcc_run hne
  rw [h] at hd
  exact dfsL_true_cycle _ _ f [] _ _ hd (fun m hm => hm) (List.chain'_singleton f)

end Wcc

/-- Walks along a one-edge extension of a relation either avoid the new
edge or split into a prefix reaching its source and a suffix from its
target. -/
theorem rtg_union_decompose {α : Type} {r : α → α → Prop} {u v : α} :
    ∀ {x y : α}, Relation.ReflTransGen (fun a b => r a b ∨ (a = u ∧ b = v)) x y →
    Relation.ReflTransGen r x y ∨
      (Relation.ReflTransGen r x u ∧ Relation.ReflTransGen r v y) := by
  intro x y h
  induction h with
  | refl => exact Or.inl .refl
  | tail _ hzy ih =>
    rcases hzy with hr | ⟨rfl, rfl⟩
    · rcases ih with h1 | ⟨h1, h2⟩
      · exact Or.inl (h1.tail hr)
      · exact Or.inr ⟨h1, h2.tail hr⟩
    · rcases ih with h1 | ⟨h1, h2⟩
      · exact Or.inr ⟨h1, .refl⟩
      · exact Or.inr ⟨h1, .refl⟩

/-- The full functional specification of the cycle oracle on well-formed
acyclic states: `wouldCreateCycle(u, v)` is `true` exactly when `v` already
reaches `u` along stored edges, or `u = v`. -/
theorem wcc_iff {st : DAGState} {f t : String} (hwf : WellFormed st) (hac : Acyclic st)
    (hf : f ∈ nodeIds st) (ht : t ∈ nodeIds st) :
    wouldCreateCycle st f t = true ↔ (f = t ∨ Reaches st t f) := by
  have hbridge : ∀ x y, gstep (adjacency st f t) x y ↔
      (estep st x y ∨ (x = f ∧ y = t)) := by
    intro x y
    constructor
    · intro hxy
      exact (adjacency_mem.1 hxy).2
    · rintro (he | ⟨rfl, rfl⟩)
      · exact adjacency_mem.2 ⟨(hwf _ he).1, Or.inl he⟩
      · exact adjacency_mem.2 ⟨hf, Or.inr ⟨rfl, rfl⟩⟩
  constructor
  · intro h
    rcases wcc_true_cycle h with rfl | ⟨a, b, hab, hba⟩
    · exact Or.inl rfl
    · have hab' : estep st a b ∨ (a = f ∧ b = t) := (hbridge a b).1 hab
      have hba' : Relation.ReflTransGen (fun x y => estep st x y ∨ (x = f ∧ y = t)) b a :=
        Relation.ReflTransGen.mono (fun x y hxy => (hbridge x y).1 hxy) hba
      rcases rtg_union_decompose hba' with hsteps | ⟨h1, h2⟩
      · rcases hab' with he | ⟨rfl, rfl⟩
        · exact (hac a b he hsteps).elim
        · exact Or.inr hsteps
      · rcases hab' with he | ⟨rfl, rfl⟩
        · exact Or.inr ((h2.tail he).trans h1)
        · exact Or.inr h1
  · intro h
    by_cases hft : f = t
    · rw [wouldCreateCycle, if_pos hft]
    · rcases h with rfl | hreach
      · exact absurd rfl hft
      · by_contra hfalse
        have hwccf : wouldCreateCycle st f t = false := by
          cases hcc : wouldCreateCycle st f t
          · rfl
          · exact absurd hcc hfalse
        exact wcc_false_no_cycle hwccf f t Relation.ReflTransGen.refl
          (adjacency_mem.2 ⟨hf, Or.inr ⟨rfl, rfl⟩⟩)
          (Relation.ReflTransGen.mono
            (fun x y hxy => (hbridge x y).2 (Or.inl hxy)) hreach)

/-! ### Preservation of the graph invariants by the operations -/

/-- The duplicate check of `addEdge` is membership of the ordered pair. -/
theorem any_eq_mem {l : List Edge} {f t : String} :
    (l.any (fun e => e.«from» = f ∧ e.«to» = t) = true) ↔
      Edge.mk f t ∈ l := by
  rw [List.any_eq_true]
  constructor
  · rintro ⟨e, he, hp⟩
    simp only [decide_eq_true_eq] at hp
    have : Edge.mk f t = e := by
      cases e
      simp only [Edge.mk.injEq]
      exact ⟨hp.1.symm, hp.2.symm⟩
    rw [this]; exact he
  · intro h
    exact ⟨Edge.mk f t, h, by simp⟩

/-- Edges of the state after a successful `addEdge`. -/
theorem estep_append {st : DAGState} {f t a b : String} :
    estep { st with edges := st.edges ++ [Edge.mk f t] } a b ↔
      (estep st a b ∨ (a = f ∧ b = t)) := by
  unfold estep
  simp [List.mem_append, Edge.mk.injEq]

/-- Removing edges cannot create a cycle. -/
theorem acyclic_of_sub {st st' : DAGState}
    (h : ∀ a b, estep st' a b → estep st a b) (hac : Acyclic st) : Acyclic st' := by
  intro a b hab hba
  exact hac a b (h a b hab) (Relation.ReflTransGen.mono h hba)

/-- One operation keeps the two structural invariants, provided an
`addEdge` names existing nodes. -/
theorem applyOp_preserves {st : DAGState} (hwf : WellFormed st) (hac : Acyclic st) :
    ∀ op : Op, (∀ f t, op = Op.addEdge f t → f ∈ nodeIds st ∧ t ∈ nodeIds st) →
    WellFormed (applyOp op st).1 ∧ Acyclic (applyOp op st).1 := by
  intro op hgood
  match op with
  | .addNode i l x y =>
    by_cases htr : trimJs l = ""
    · simp only [applyOp, htr, if_true]
      exact ⟨hwf, hac⟩
    · simp only [applyOp, htr, if_false]
      constructor
      · intro e he
        obtain ⟨h1, h2⟩ := hwf e he
        have hmono : ∀ z, z ∈ nodeIds st →
            z ∈ nodeIds { st with nodes := st.nodes ++ [Node.mk i (trimJs l) x y] } := by
          intro z hz
          unfold nodeIds at hz ⊢
          rw [List.map_append]
          exact List.mem_append.2 (Or.inl hz)
        exact ⟨hmono _ h1, hmono _ h2⟩
      · exact hac
  | .deleteNode i =>
    constructor
    · intro e he
      simp only [applyOp] at he
      obtain ⟨heOld, hq⟩ := List.mem_filter.1 he
      simp only [decide_eq_true_eq] at hq
      obtain ⟨h1, h2⟩ := hwf e heOld
      have hmono : ∀ z, z ∈ nodeIds st → ¬ z = i →
          z ∈ nodeIds (applyOp (Op.deleteNode i) st).1 := by
        intro z hz hzi
        obtain ⟨n, hn, hnid⟩ := List.mem_map.1 hz
        simp only [applyOp, nodeIds]
        exact List.mem_map.2 ⟨n, List.mem_filter.2 ⟨hn, by simp [hnid, hzi]⟩, hnid⟩
      exact ⟨hmono _ h1 hq.1, hmono _ h2 hq.2⟩
    · refine acyclic_of_sub ?_ hac
      intro a b hab
      exact (List.mem_filter.1 hab).1
  | .addEdge f t =>
    obtain ⟨hf, ht⟩ := hgood f t rfl
    by_cases hdup : st.edges.any (fun e => e.«from» = f ∧ e.«to» = t) = true
    · simp only [applyOp, hdup, if_true]
      exact ⟨hwf, hac⟩
    · simp only [Bool.not_eq_true] at hdup
      by_cases hcyc : wouldCreateCycle st f t = true
      · simp only [applyOp, hdup, Bool.false_eq_true, if_false, hcyc, if_true]
        exact ⟨hwf, hac⟩
      · simp only [Bool.not_eq_true] at hcyc
        simp only [applyOp, hdup, Bool.false_eq_true, if_false, hcyc]
        have hnot : ¬ (f = t ∨ Reaches st t f) := by
          intro hr
          have := (wcc_iff hwf hac hf ht).2 hr
          rw [hcyc] at this
          cases this
        constructor
        · intro e he
          rcases List.mem_append.1 he with hold | hnew
          · exact hwf e hold
          · rcases List.mem_cons.1 hnew with rfl | hcon
            · exact ⟨hf, ht⟩
            · cases hcon
        · intro a b hab hba
          have hab' := estep_append.1 hab
          have hba' : Relation.ReflTransGen
              (fun x y => estep st x y ∨ (x = f ∧ y = t)) b a :=
            Relation.ReflTransGen.mono (fun x y hxy => estep_append.1 hxy) hba
          rcases rtg_union_decompose hba' with hsteps | ⟨h1, h2⟩
          · rcases hab' with he | ⟨rfl, rfl⟩
            · exact hac a b he hsteps
            · exact hnot (Or.inr hsteps)
          · rcases hab' with he | ⟨rfl, rfl⟩
            · exact hnot (Or.inr ((h2.tail he).trans h1))
            · exact hnot (Or.inr h1)
  | .deleteEdge f t =>
    constructor
    · intro e he
      simp only [applyOp] at he
      exact hwf e (List.mem_filter.1 he).1
    · refine acyclic_of_sub ?_ hac
      intro a b hab
      exact (List.mem_filter.1 hab).1

/-- Running a list of operations whose `addEdge` calls name existing nodes
keeps the two structural invariants. -/
theorem inv_run : ∀ (ops : List Op) (st : DAGState), WellFormed st → Acyclic st →
    goodFrom st ops = true →
    WellFormed (runOps ops st) ∧ Acyclic (runOps ops st) := by
  intro ops
  induction ops with
  | nil => intro st hwf hac _; exact ⟨hwf, hac⟩
  | cons op rest ih =>
    intro st hwf hac hg
    rw [goodFrom, Bool.and_eq_true] at hg
    obtain ⟨hop, hrest⟩ := hg
    have hstep := applyOp_preserves hwf hac op (by
      intro f t hft
      subst hft
      simp only [opOk, Bool.and_eq_true, decide_eq_true_eq] at hop
      exact hop)
    exact ih (applyOp op st).1 hstep.1 hstep.2 hrest

/-- Prefixes of a well-behaved operation list are well-behaved. -/
theorem goodFrom_take : ∀ (ops : List Op) (st : DAGState), goodFrom st ops = true →
    ∀ n, goodFrom st (ops.take n) = true := by
  intro ops
  induction ops with
  | nil => intro st _ n; simp [goodFrom]
  | cons op rest ih =>
    intro st hg n
    rw [goodFrom, Bool.and_eq_true] at hg
    match n with
    | 0 => rfl
    | n + 1 =>
      rw [List.take_succ_cons, goodFrom, Bool.and_eq_true]
      exact ⟨hg.1, ih _ hg.2 n⟩

/-- The empty graph satisfies both invariants. -/
theorem emptyState_inv : WellFormed emptyState ∧ Acyclic emptyState := by
  constructor
  · intro e he; cases he
  · intro a b hab; cases hab

/-- Failing operations do not change the state. -/
theorem applyOp_error_frame : ∀ (op : Op) (st : DAGState),
    (applyOp op st).2.isSome = true → (applyOp op st).1 = st := by
  intro op st h
  match op with
  | .addNode i l x y =>
    by_cases htr : trimJs l = ""
    · simp [applyOp, htr]
    · simp [applyOp, htr] at h
  | .deleteNode i => simp [applyOp] at h
  | .addEdge f t =>
    simp only [applyOp] at h ⊢
    by_cases hdup : st.edges.any (fun e => e.«from» = f ∧ e.«to» = t) = true
    · rw [if_pos hdup]
    · rw [if_neg hdup] at h ⊢
      by_cases hcyc : wouldCreateCycle st f t = true
      · rw [if_pos hcyc]
      · rw [if_neg hcyc] at h
        simp at h
  | .deleteEdge f t => simp [applyOp] at h

/-! ### The snapshot codec round trip -/

/-- A node record is read back unchanged. -/
theorem nodeFromJson_nodeToJson (n : Node) : nodeFromJson (nodeToJson n) = some n := rfl

/-- An edge record is read back unchanged. -/
theorem edgeFromJson_edgeToJson (e : Edge) : edgeFromJson (edgeToJson e) = some e := rfl

/-- Reading back a list of encoded records recovers the list. -/
theorem optionAll_map {α β : Type} (g : β → Option α) (h : α → β)
    (hg : ∀ a, g (h a) = some a) : ∀ l : List α, optionAll g (l.map h) = some l := by
  intro l
  induction l with
  | nil => rfl
  | cons a rest ih => simp [optionAll, List.map_cons, hg a, ih]

/-! ### The claims -/

/-- C1 (amended): for every sequence of operations starting from the empty
graph in which each `addEdge` call names existing nodes — as every
interaction through the rendering layer does — the edge set is acyclic at
every observable point, i.e. after every prefix of the sequence.  (As
stated over arbitrary `addEdge` arguments the claim fails, see the
counterexample: `addEdge` performs no endpoint-existence check.) -/
theorem claim1_acyclic_traces (ops : List Op) (n : Nat)
    (h : goodFrom emptyState ops = true) :
    Acyclic (runOps (ops.take n) emptyState) :=
  (inv_run (ops.take n) emptyState emptyState_inv.1 emptyState_inv.2
    (goodFrom_take ops emptyState h n)).2

/-- Witness for C1: a concrete well-targeted sequence, with an acyclic
result. -/
theorem claim1_witness :
    goodFrom emptyState
      [Op.addNode "a" "A" 0 0, Op.addNode "b" "B" 0 0, Op.addEdge "a" "b"] = true ∧
    Acyclic (runOps
      ([Op.addNode "a" "A" 0 0, Op.addNode "b" "B" 0 0, Op.addEdge "a" "b"].take 3)
      emptyState) :=
  ⟨by decide, claim1_acyclic_traces
    [Op.addNode "a" "A" 0 0, Op.addNode "b" "B" 0 0, Op.addEdge "a" "b"] 3 (by decide)⟩

/-- Counterexample to C1 as stated: a sequence of successful operations
from the empty graph whose resulting edge set contains the directed cycle
a → b → g → a (the ids "b"→"g" and "g"→"a" pass the cycle check because a
source that is not a stored node is invisible to the adjacency map). -/
theorem claim1_counterexample :
    allOk emptyState [Op.addNode "a" "A" 0 0, Op.addNode "b" "B" 0 0,
      Op.addEdge "a" "b", Op.addEdge "b" "g", Op.addEdge "g" "a"] = true ∧
    ¬ Acyclic (runOps [Op.addNode "a" "A" 0 0, Op.addNode "b" "B" 0 0,
      Op.addEdge "a" "b", Op.addEdge "b" "g", Op.addEdge "g" "a"] emptyState) := by
  constructor
  · decide
  · intro hac
    refine hac "a" "b" (by decide) ?_
    have h1 : estep (runOps [Op.addNode "a" "A" 0 0, Op.addNode "b" "B" 0 0,
      Op.addEdge "a" "b", Op.addEdge "b" "g", Op.addEdge "g" "a"] emptyState) "b" "g" := by decide
    have h2 : estep (runOps [Op.addNode "a" "A" 0 0, Op.addNode "b" "B" 0 0,
      Op.addEdge "a" "b", Op.addEdge "b" "g", Op.addEdge "g" "a"] emptyState) "g" "a" := by decide
    exact Relation.ReflTransGen.head h1 (Relation.ReflTransGen.head h2 Relation.ReflTransGen.refl)

/-- C2: the import path performs no re-validation whatsoever: a parsed
document with an edge referencing a non-existent node id is adopted
wholesale with no error, replacing the previously-loaded graph — the code
only reports "Invalid file format" when `JSON.parse` throws. -/
theorem claim2_import_no_validation :
    (importGraph (some ⟨[], [⟨"A", "B"⟩]⟩) ⟨[⟨"n1", "N", 0, 0⟩], []⟩).2 = none ∧
    (importGraph (some ⟨[], [⟨"A", "B"⟩]⟩) ⟨[⟨"n1", "N", 0, 0⟩], []⟩).1 ≠
      ⟨[⟨"n1", "N", 0, 0⟩], []⟩ ∧
    ¬ WellFormed (importGraph (some ⟨[], [⟨"A", "B"⟩]⟩) ⟨[⟨"n1", "N", 0, 0⟩], []⟩).1 := by
  refine ⟨rfl, by decide, ?_⟩
  intro h
  have hm := h ⟨"A", "B"⟩ (by decide)
  exact (List.not_mem_nil "A") hm.1

/-- Counterexample to C3 as stated: `addEdge("b", "c")` on a graph whose
only node is "a" succeeds and appends the edge — there is no `UnknownNode`
check at all. -/
theorem claim3_counterexample :
    applyOp (Op.addEdge "b" "c") ⟨[⟨"a", "A", 0, 0⟩], []⟩ =
      (⟨[⟨"a", "A", 0, 0⟩], [⟨"b", "c"⟩]⟩, none) := by decide

/-- C3 (amended): `addEdge` validates in the order (1) `DuplicateEdge` if
the identical directed edge exists, (2) `WouldCreateCycle` otherwise when
the oracle fires (which happens in particular for `from == to`); there is
no `UnknownNode` and no separate `SelfLoop` check, so `addEdge(x, x)` for
an existing node `x` fails with `WouldCreateCycle` (or `DuplicateEdge` if
`(x, x)` is already stored), leaving the state unchanged. -/
theorem claim3_selfloop_reports_cycle (st : DAGState) (x : String)
    (_hx : x ∈ nodeIds st) :
    applyOp (Op.addEdge x x) st =
      (st, some (if Edge.mk x x ∈ st.edges then Err.duplicateEdge
                 else Err.wouldCreateCycle)) := by
  simp only [applyOp]
  by_cases hdup : Edge.mk x x ∈ st.edges
  · rw [if_pos (any_eq_mem.2 hdup), if_pos hdup]
  · have hw : wouldCreateCycle st x x = true := by rw [wouldCreateCycle, if_pos rfl]
    rw [if_neg (fun hc => hdup (any_eq_mem.1 hc)), if_pos hw, if_neg hdup]

/-- Witness for C3: on the one-node graph "a", `addEdge("a","a")` reports
the would-create-cycle error and leaves the state unchanged. -/
theorem claim3_witness :
    ("a" ∈ nodeIds ⟨[⟨"a", "A", 0, 0⟩], []⟩) ∧
    applyOp (Op.addEdge "a" "a") ⟨[⟨"a", "A", 0, 0⟩], []⟩ =
      (⟨[⟨"a", "A", 0, 0⟩], []⟩, some Err.wouldCreateCycle) := by
  refine ⟨by decide, ?_⟩
  have h := claim3_selfloop_reports_cycle ⟨[⟨"a", "A", 0, 0⟩], []⟩ "a" (by decide)
  rw [h]
  decide

/-- Counterexample to C4 as stated: one successful `addEdge` from the
empty graph yields a state with a dangling edge. -/
theorem claim4_counterexample :
    (applyOp (Op.addEdge "b" "c") emptyState).2 = none ∧
    ¬ WellFormed (runOps [Op.addEdge "b" "c"] emptyState) := by
  refine ⟨by decide, ?_⟩
  intro h
  have hm := h ⟨"b", "c"⟩ (by decide)
  exact (List.not_mem_nil "b") hm.1

/-- C4 (amended): in every state reachable from the empty graph by
operations whose `addEdge` calls name existing nodes — as all calls issued
by the rendering layer do — every edge's `from` and `to` reference a
currently-existing node, `deleteNode` cascading included.  (As stated over
arbitrary `addEdge` arguments the claim fails, see the counterexample.) -/
theorem claim4_no_dangling_good_traces (ops : List Op) (n : Nat)
    (h : goodFrom emptyState ops = true) :
    WellFormed (runOps (ops.take n) emptyState) :=
  (inv_run (ops.take n) emptyState emptyState_inv.1 emptyState_inv.2
    (goodFrom_take ops emptyState h n)).1

/-- Witness for C4: a concrete well-targeted sequence together with the
cascade delete, ending well-formed. -/
theorem claim4_witness :
    goodFrom emptyState [Op.addNode "a" "A" 0 0, Op.addNode "b" "B" 0 0,
      Op.addEdge "a" "b", Op.deleteNode "a"] = true ∧
    WellFormed (runOps ([Op.addNode "a" "A" 0 0, Op.addNode "b" "B" 0 0,
      Op.addEdge "a" "b", Op.deleteNode "a"].take 4) emptyState) :=
  ⟨by decide, claim4_no_dangling_good_traces [Op.addNode "a" "A" 0 0,
    Op.addNode "b" "B" 0 0, Op.addEdge "a" "b", Op.deleteNode "a"] 4 (by decide)⟩

/-- C5: on a well-formed acyclic state, for existing nodes `u` and `v` the
cycle check `wouldCreateCycle(u, v)` returns `true` if and only if `v` can
already reach `u` along the current edges, or `u = v`. -/
theorem claim5_cycle_oracle_iff (st : DAGState) (u v : String)
    (hwf : WellFormed st) (hac : Acyclic st)
    (hu : u ∈ nodeIds st) (hv : v ∈ nodeIds st) :
    wouldCreateCycle st u v = true ↔ (Reaches st v u ∨ u = v) := by
  rw [wcc_iff hwf hac hu hv]
  exact Or.comm

/-- Witness for C5 at the one-node edgeless graph. -/
theorem claim5_witness :
    ("x" ∈ nodeIds ⟨[⟨"x", "X", 0, 0⟩], []⟩) ∧
    (wouldCreateCycle ⟨[⟨"x", "X", 0, 0⟩], []⟩ "x" "x" = true ↔
      (Reaches ⟨[⟨"x", "X", 0, 0⟩], []⟩ "x" "x" ∨ "x" = "x")) := by
  refine ⟨by decide, ?_⟩
  exact claim5_cycle_oracle_iff ⟨[⟨"x", "X", 0, 0⟩], []⟩ "x" "x"
    (fun e he => absurd he (List.not_mem_nil e))
    (fun a b hab _ => absurd hab (List.not_mem_nil _))
    (by decide) (by decide)

/-- C6: every failing operation leaves the graph state unchanged, and
calling `addEdge(a, b)` twice in a row makes the second call fail with
`DuplicateEdge` with the edge count unchanged after the second call. -/
theorem claim6_error_frame :
    (∀ (op : Op) (st : DAGState),
      (applyOp op st).2.isSome = true → (applyOp op st).1 = st) ∧
    (∀ (st : DAGState) (a b : String), (applyOp (Op.addEdge a b) st).2 = none →
      (applyOp (Op.addEdge a b) (applyOp (Op.addEdge a b) st).1).2 =
        some Err.duplicateEdge ∧
      (applyOp (Op.addEdge a b) (applyOp (Op.addEdge a b) st).1).1.edges.length =
        (applyOp (Op.addEdge a b) st).1.edges.length) := by
  refine ⟨applyOp_error_frame, ?_⟩
  intro st a b h
  simp only [applyOp] at h
  by_cases hdup : st.edges.any (fun e => e.«from» = a ∧ e.«to» = b) = true
  · rw [if_pos hdup] at h; exact Option.noConfusion h
  · rw [if_neg hdup] at h
    by_cases hcyc : wouldCreateCycle st a b = true
    · rw [if_pos hcyc] at h; exact Option.noConfusion h
    · have hsucc : applyOp (Op.addEdge a b) st =
          ({ st with edges := st.edges ++ [Edge.mk a b] }, none) := by
        simp only [applyOp]; rw [if_neg hdup, if_neg hcyc]
      rw [hsucc]
      have hdup2 : Edge.mk a b ∈ st.edges ++ [Edge.mk a b] :=
        List.mem_append.2 (Or.inr (List.mem_cons_self _ _))
      have h2 : applyOp (Op.addEdge a b) { st with edges := st.edges ++ [Edge.mk a b] } =
          ({ st with edges := st.edges ++ [Edge.mk a b] }, some Err.duplicateEdge) := by
        simp only [applyOp]
        rw [if_pos (any_eq_mem.2 hdup2)]
      rw [h2]
      exact ⟨rfl, rfl⟩

/-- Witness for C6: a failing `addNode` keeps the empty state; a repeated
`addEdge` reports the duplicate. -/
theorem claim6_witness :
    ((applyOp (Op.addNode "i" "" 0 0) emptyState).2.isSome = true ∧
      (applyOp (Op.addNode "i" "" 0 0) emptyState).1 = emptyState) ∧
    ((applyOp (Op.addEdge "a" "b") ⟨[⟨"a", "A", 0, 0⟩, ⟨"b", "B", 0, 0⟩], []⟩).2 = none ∧
      (applyOp (Op.addEdge "a" "b")
        (applyOp (Op.addEdge "a" "b") ⟨[⟨"a", "A", 0, 0⟩, ⟨"b", "B", 0, 0⟩], []⟩).1).2 =
        some Err.duplicateEdge) :=
  ⟨⟨by decide, claim6_error_frame.1 (Op.addNode "i" "" 0 0) emptyState (by decide)⟩,
   ⟨by decide,
    (claim6_error_frame.2 ⟨[⟨"a", "A", 0, 0⟩, ⟨"b", "B", 0, 0⟩], []⟩ "a" "b" (by decide)).1⟩⟩

/-- C7: decoding an exported snapshot recovers the graph exactly — node
ids, labels and positions identical and in the stored order, edge
endpoints identical and in the stored order. -/
theorem claim7_roundtrip (g : DAGState) : graphFromJson (exportGraph g) = some g := by
  have h1 : getField (exportGraph g) "nodes" = some (.arr (g.nodes.map nodeToJson)) := rfl
  have h2 : getField (exportGraph g) "edges" = some (.arr (g.edges.map edgeToJson)) := rfl
  unfold graphFromJson
  rw [h1, h2]
  simp only [optionAll_map nodeFromJson nodeToJson nodeFromJson_nodeToJson g.nodes,
    optionAll_map edgeFromJson edgeToJson edgeFromJson_edgeToJson g.edges]

/-- C8: `deleteNode(id)` for an existing id reports no error and removes
exactly that node and every edge incident to it, in one step. -/
theorem claim8_cascade_delete (st : DAGState) (i : String) (_hi : i ∈ nodeIds st) :
    (applyOp (Op.deleteNode i) st).2 = none ∧
    (∀ n, n ∈ (applyOp (Op.deleteNode i) st).1.nodes ↔ n ∈ st.nodes ∧ ¬ n.id = i) ∧
    (∀ e, e ∈ (applyOp (Op.deleteNode i) st).1.edges ↔
      e ∈ st.edges ∧ ¬ e.«from» = i ∧ ¬ e.«to» = i) := by
  refine ⟨rfl, ?_, ?_⟩
  · intro n
    simp only [applyOp, List.mem_filter, decide_eq_true_eq]
  · intro e
    simp only [applyOp, List.mem_filter, decide_eq_true_eq]

/-- Witness for C8: deleting B from A, B, C with edges A→B, B→C leaves
nodes A, C and no edges. -/
theorem claim8_witness :
    ("B" ∈ nodeIds ⟨[⟨"A", "A", 0, 0⟩, ⟨"B", "B", 0, 0⟩, ⟨"C", "C", 0, 0⟩],
      [⟨"A", "B"⟩, ⟨"B", "C"⟩]⟩) ∧
    (applyOp (Op.deleteNode "B") ⟨[⟨"A", "A", 0, 0⟩, ⟨"B", "B", 0, 0⟩, ⟨"C", "C", 0, 0⟩],
      [⟨"A", "B"⟩, ⟨"B", "C"⟩]⟩).2 = none ∧
    (applyOp (Op.deleteNode "B") ⟨[⟨"A", "A", 0, 0⟩, ⟨"B", "B", 0, 0⟩, ⟨"C", "C", 0, 0⟩],
      [⟨"A", "B"⟩, ⟨"B", "C"⟩]⟩).1 = ⟨[⟨"A", "A", 0, 0⟩, ⟨"C", "C", 0, 0⟩], []⟩ := by
  refine ⟨by decide, ?_, by decide⟩
  exact (claim8_cascade_delete ⟨[⟨"A", "A", 0, 0⟩, ⟨"B", "B", 0, 0⟩, ⟨"C", "C", 0, 0⟩],
    [⟨"A", "B"⟩, ⟨"B", "C"⟩]⟩ "B" (by decide)).1

/-- Counterexample to C9 as stated: deleting an id that is not present
does not fail — the code has no `NotFound` path and reports no error. -/
theorem claim9_counterexample :
    ¬ ("x" ∈ nodeIds emptyState) ∧
    applyOp (Op.deleteNode "x") emptyState = (emptyState, none) := by decide

/-- C9 (amended): `deleteNode(id)` for an id not present in the node set
is a silent no-op: on a state without dangling edges it reports no error
and leaves the state unchanged. -/
theorem claim9_missing_id_noop (st : DAGState) (i : String)
    (hi : i ∉ nodeIds st) (hwf : WellFormed st) :
    applyOp (Op.deleteNode i) st = (st, none) := by
  simp only [applyOp, Prod.mk.injEq]
  refine ⟨?_, trivial⟩
  have hn : st.nodes.filter (fun n => ¬ n.id = i) = st.nodes := by
    apply List.filter_eq_self.2
    intro n hn
    simp only [decide_eq_true_eq]
    intro hcon
    exact hi (List.mem_map.2 ⟨n, hn, hcon⟩)
  have he : st.edges.filter (fun e => ¬ e.«from» = i ∧ ¬ e.«to» = i) = st.edges := by
    apply List.filter_eq_self.2
    intro e hee
    simp only [decide_eq_true_eq]
    obtain ⟨h1, h2⟩ := hwf e hee
    exact ⟨fun hc => hi (hc ▸ h1), fun hc => hi (hc ▸ h2)⟩
  rw [hn, he]

/-- Witness for C9: deleting the absent id "x" from a one-node graph. -/
theorem claim9_witness :
    applyOp (Op.deleteNode "x") ⟨[⟨"a", "A", 0, 0⟩], []⟩ =
      (⟨[⟨"a", "A", 0, 0⟩], []⟩, none) :=
  claim9_missing_id_noop ⟨[⟨"a", "A", 0, 0⟩], []⟩ "x" (by decide)
    (fun e he => absurd he (List.not_mem_nil e))

/-- C10: `deleteEdge(from, to)` reports no error, keeps the node list,
removes exactly the edges with endpoints `(from, to)` while preserving the
order of the others, and is the identity when no edge matches. -/
theorem claim10_delete_edge (st : DAGState) (f t : String) :
    (applyOp (Op.deleteEdge f t) st).2 = none ∧
    (applyOp (Op.deleteEdge f t) st).1.nodes = st.nodes ∧
    (∀ e, e ∈ (applyOp (Op.deleteEdge f t) st).1.edges ↔
      e ∈ st.edges ∧ ¬ (e.«from» = f ∧ e.«to» = t)) ∧
    (applyOp (Op.deleteEdge f t) st).1.edges.Sublist st.edges ∧
    (Edge.mk f t ∉ st.edges → (applyOp (Op.deleteEdge f t) st).1 = st) := by
  refine ⟨rfl, rfl, ?_, ?_, ?_⟩
  · intro e
    simp only [applyOp, List.mem_filter, decide_eq_true_eq]
  · exact List.filter_sublist _
  · intro hmem
    simp only [applyOp]
    have hfil : st.edges.filter (fun e => ¬ (e.«from» = f ∧ e.«to» = t)) = st.edges := by
      apply List.filter_eq_self.2
      intro e hee
      simp only [decide_eq_true_eq]
      rintro ⟨h1, h2⟩
      apply hmem
      have hfe : Edge.mk f t = e := by
        cases e
        simp only [Edge.mk.injEq]
        exact ⟨h1.symm, h2.symm⟩
      rw [hfe]; exact hee
    rw [hfil]

/-- Witness for C10: deleting a non-matching pair leaves the state
untouched with no error. -/
theorem claim10_witness :
    applyOp (Op.deleteEdge "x" "y") ⟨[], [⟨"a", "b"⟩]⟩ =
      (⟨[], [⟨"a", "b"⟩]⟩, none) := by
  have h := claim10_delete_edge ⟨[], [⟨"a", "b"⟩]⟩ "x" "y"
  rw [Prod.ext_iff]
  exact ⟨h.2.2.2.2 (by decide), h.1⟩

end DagBuilder
